import Mathlib

/-!
Verification of the log(ger) repository's import/normalization engine and
frontend utilities, as a shallow embedding in Lean 4.

The real-time timer arithmetic and the markdown escaping are translated
directly from the TypeScript sources (frontend stores/timer.ts and
lib/utils/markdown.ts).  The Import & Normalization Engine itself is a
Python backend that is not part of the checked-out sources; the
definitions for it below are modelled from the specification document
(each such definition says so in its doc comment).
-/

namespace Logger

/-! ## Column Normalizer (spec 4.2) -/

/-- Characters kept by the column normalizer: letters and digits. -/
def isAlnum (c : Char) : Bool := c.isAlpha || c.isDigit

/-- Modelled from the spec: the Column Normalizer "strips parenthetical
unit annotations".  The boolean flag records whether we are currently
inside a parenthesis.  (The backend implementation is not in the source
tree.) -/
def stripParens : Bool → List Char → List Char
  | _, [] => []
  | false, c :: rest =>
      if c = '(' then stripParens true rest else c :: stripParens false rest
  | true, c :: rest =>
      if c = ')' then stripParens false rest else stripParens true rest

/-- Maximal runs of alphanumeric characters of a character list; all
non-alphanumeric characters act as separators. -/
def alnumRuns : List Char → List (List Char)
  | [] => []
  | c :: rest =>
      let rs := alnumRuns rest
      if isAlnum c then
        match rest with
        | [] => [[c]]
        | d :: _ =>
            if isAlnum d then
              match rs with
              | r :: tl => (c :: r) :: tl
              | [] => [[c]]
            else [c] :: rs
      else rs

/-- Modelled from the spec: trailing unit words removed by the Column
Normalizer. -/
def unitWords : List String :=
  ["min", "mins", "minute", "minutes", "hr", "hrs", "hour", "hours"]

/-- Modelled from the spec: the Column Normalizer maps a raw column
header to its merge key — "strip parenthetical unit annotations and
trailing unit words, collapse whitespace, lower-case, replace
non-alphanumeric runs with a single separator to form the merge key".
(The backend implementation is not in the source tree.) -/
def normalizeKey (s : String) : String :=
  let runs := (alnumRuns (stripParens false s.data)).map
    (fun r => String.mk (r.map Char.toLower))
  let kept := (runs.reverse.dropWhile (fun w => unitWords.contains w)).reverse
  String.intercalate "_" kept

/-- One merged column: the merge key, every contributing raw header, and
the (per-row) minute total. -/
structure MergedCol where
  key : String
  sources : List String
  minutes : Nat
deriving Repr, DecidableEq

/-- Modelled from the spec: fold one raw column into the merged-column
accumulator.  "If multiple raw headers normalize to the same merge key,
their per-row numeric values are summed, not overwritten, and all
contributing raw header names are retained as source_columns". -/
def insertCol (acc : List MergedCol) (raw : String) (v : Nat) : List MergedCol :=
  match acc with
  | [] => [⟨normalizeKey raw, [raw], v⟩]
  | c :: rest =>
      if c.key = normalizeKey raw then
        ⟨c.key, c.sources ++ [raw], c.minutes + v⟩ :: rest
      else
        c :: insertCol rest raw v

/-- Modelled from the spec: merge a row's raw (header, value) columns by
merge key, left to right. -/
def mergeColumns (cols : List (String × Nat)) : List MergedCol :=
  cols.foldl (fun acc p => insertCol acc p.1 p.2) []

/-- Look up the merged column for a merge key. -/
def findCat (m : List MergedCol) (k : String) : Option MergedCol :=
  m.find? (fun c => decide (c.key = k))

/-- The raw columns contributing to merge key `k`. -/
def contrib (cols : List (String × Nat)) (k : String) : List (String × Nat) :=
  cols.filter (fun p => decide (normalizeKey p.1 = k))

/-! ## Markdown escaping (frontend/src/lib/utils/markdown.ts) -/

/-- One global character replacement, as performed by
`String.prototype.replace` with a single-character global regex. -/
def replaceChar (t : Char) (r : List Char) : List Char → List Char
  | [] => []
  | c :: rest => (if c = t then r else [c]) ++ replaceChar t r rest

/-- The characters of the HTML entity for the ampersand. -/
def ampEnt : List Char := ['&', 'a', 'm', 'p', ';']

/-- The characters of the HTML entity for the less-than sign. -/
def ltEnt : List Char := ['&', 'l', 't', ';']

/-- The characters of the HTML entity for the greater-than sign. -/
def gtEnt : List Char := ['&', 'g', 't', ';']

/-- The characters of the HTML entity for the double quote. -/
def quotEnt : List Char := ['&', 'q', 'u', 'o', 't', ';']

/-- `escapeHtml` from frontend/src/lib/utils/markdown.ts: replaces the
ampersand first, then the angle brackets, then the double quote, each
globally. -/
def escapeHtml (s : String) : String :=
  String.mk
    (replaceChar '"' quotEnt
      (replaceChar '>' gtEnt
        (replaceChar '<' ltEnt
          (replaceChar '&' ampEnt s.data))))

/-! ## Timer arithmetic (frontend/src/lib/stores/timer.ts) -/

/-- The fields of `TimerEntryResponse` used by `computeElapsedSeconds`.
Times are in milliseconds since the epoch, as rational numbers standing
in for JavaScript numbers. -/
structure TimerEntry where
  start_time : ℚ
  total_paused_seconds : ℚ
  is_paused : Bool
  pause_start : Option ℚ

/-- `computeElapsedSeconds` from frontend/src/lib/stores/timer.ts:
elapsed wall-clock seconds minus completed pause time, minus the pending
pause when the timer is currently paused, clamped by
`Math.max(0, Math.floor(elapsed))`. -/
def computeElapsedSeconds (t : TimerEntry) (now : ℚ) : ℤ :=
  let e1 := (now - t.start_time) / 1000
  let e2 := e1 - t.total_paused_seconds
  let e3 :=
    match t.is_paused, t.pause_start with
    | true, some ps => e2 - (now - ps) / 1000
    | _, _ => e2
  max 0 ⌊e3⌋

/-- `String(n).padStart(2, '0')` for a natural number, as used by
`formatElapsed`. -/
def padTwo (n : Nat) : String :=
  let s := toString n
  if s.length < 2 then "0" ++ s else s

/-- `formatElapsed` from frontend/src/lib/stores/timer.ts. -/
def formatElapsed (seconds : Nat) : String :=
  let h := seconds / 3600
  let m := seconds % 3600 / 60
  let s := seconds % 60
  toString h ++ ":" ++ padTwo m ++ ":" ++ padTwo s

/-! ## Family Classifier (spec 4.3) -/

/-- Boolean test that the first character list is an initial segment of
the second. -/
def isPre : List Char → List Char → Bool
  | [], _ => true
  | _ :: _, [] => false
  | a :: as, b :: bs => decide (a = b) && isPre as bs

/-- The linkage decided by the Family Classifier for one category. -/
structure FamilyLink where
  family : String
  is_new_family : Bool
  family_type : String
deriving Repr, DecidableEq

/-- The four seasons accepted by the Session Resolver. -/
def seasons : List String := ["fall", "winter", "spring", "summer"]

/-- A non-empty all-digit string. -/
def allDigits (s : String) : Bool := !s.isEmpty && s.data.all Char.isDigit

/-- Modelled from the spec: a term-qualifier token (a season or a
year-like suffix such as a bare year or `winter24`), stripped by step 1
of the Family Classifier.  (The backend implementation is not in the
source tree.) -/
def termTok (t : String) : Bool :=
  seasons.contains t || allDigits t ||
    seasons.any (fun se =>
      isPre se.data t.data && allDigits (String.mk (t.data.drop se.data.length)))

/-- Split a character list at underscores, keeping empty segments (the
behaviour of splitting a string on a single-character separator). -/
def splitSep : List Char → List (List Char)
  | [] => [[]]
  | c :: rest =>
      let rs := splitSep rest
      if c = '_' then [] :: rs
      else
        match rs with
        | r :: tl => (c :: r) :: tl
        | [] => [[c]]

/-- Split a string at underscores. -/
def splitUnders (s : String) : List String := (splitSep s.data).map String.mk

/-- Modelled from the spec: "derive a candidate family key by stripping
trailing term-qualifier tokens (season/year-like suffixes) from the
merge key". -/
def candidateKey (key : String) : String :=
  String.intercalate "_" (((splitUnders key).reverse.dropWhile termTok).reverse)

/-- Modelled from the spec: "a curated course-code pattern (e.g.,
two-five letters followed by two-three digits)". -/
def courseCode (s : String) : Bool :=
  let letters := s.data.takeWhile Char.isAlpha
  let rest := s.data.drop letters.length
  decide (2 ≤ letters.length ∧ letters.length ≤ 5 ∧
          2 ≤ rest.length ∧ rest.length ≤ 3) && rest.all Char.isDigit

/-- Keep the longer of an optional current best match and a new match
(ties keep the current one). -/
def pickLonger (best : Option String) (f : String) : Option String :=
  match best with
  | none => some f
  | some b => if b.length < f.length then some f else some b

/-- Modelled from the spec: among the existing family keys that are a
prefix of the candidate key, "choose the longest matching prefix (most
specific family wins)". -/
def bestPre (cand : String) (fams : List String) : Option String :=
  fams.foldl (fun best f => if isPre f.data cand.data then pickLonger best f else best)
    none

/-- Modelled from the spec: the Family Classifier.  Links to the most
specific existing family whose key is a prefix of the candidate key
(an exactly matching key included), else proposes a new family whose
type is `course` for course-code keys and `other` otherwise. -/
def classify (fams : List String) (key : String) : FamilyLink :=
  let cand := candidateKey key
  match bestPre cand fams with
  | some f => ⟨f, false, "existing"⟩
  | none => ⟨cand, true, if courseCode cand then "course" else "other"⟩

/-! ## Persistent entities (spec 3 and the schema document) -/

/-- One academic term (schema table `sessions`). -/
structure Session where
  id : Nat
  year : Nat
  season : String
  label : String
  start_date : String
  end_date : String
  is_active : Bool
deriving Repr, DecidableEq

/-- A cross-session category family (schema table `category_families`). -/
structure Family where
  id : Nat
  name : String
  family_type : String
deriving Repr, DecidableEq

/-- One tracked activity within a session (schema table `categories`). -/
structure Category where
  id : Nat
  session_id : Nat
  name : String
  display_name : String
  family_id : Option Nat
deriving Repr, DecidableEq

/-- One date within one session (schema table `daily_records`). -/
structure DailyRecord where
  id : Nat
  session_id : Nat
  date : String
  total_minutes : Nat
deriving Repr, DecidableEq

/-- One (daily record, category) fact (schema table `observations`). -/
structure Observation where
  daily_record_id : Nat
  category_id : Nat
  minutes : Nat
  source : String
deriving Repr, DecidableEq

/-- One free-text record per (session, date) (schema table `text_entries`). -/
structure TextEntry where
  session_id : Nat
  date : String
deriving Repr, DecidableEq

/-- The persistent relational store. -/
structure Store where
  sessions : List Session
  families : List Family
  categories : List Category
  dailyRecords : List DailyRecord
  observations : List Observation
  textEntries : List TextEntry
deriving Repr, DecidableEq

/-- The error kinds of spec 7. -/
inductive ImportError where
  | MalformedCSV
  | UnparsableFilename
  | InvalidDuration
  | PartialFileMismatch
  | DuplicateSession
  | PreviewExpired
  | CommitConflict
deriving Repr, DecidableEq

/-- One per-category preview entry (`ImportCategoryPreview` in the API
client). -/
structure CatPreview where
  name : String
  display_name : String
  auto_family : String
  is_new_family : Bool
  source_columns : List String
deriving Repr, DecidableEq

/-- The preview response (`ImportPreviewResponse` in the API client). -/
structure PreviewResult where
  preview_id : Nat
  session_year : Nat
  session_season : String
  session_label : String
  row_count : Nat
  categories : List CatPreview
  text_row_count : Nat
  warnings : List String
deriving Repr, DecidableEq

/-- One parsed study row after column merging: its date and its merged
columns. -/
structure RowData where
  date : String
  cols : List MergedCol
deriving Repr, DecidableEq

/-- The fully parsed intermediate structure cached under a preview
token (spec 4.5). -/
structure CachedPreview where
  year : Nat
  season : String
  label : String
  cats : List CatPreview
  rows : List RowData
  textDates : List String
deriving Repr, DecidableEq

/-- The process-wide mutable state: the persistent store plus the
preview cache and its token counter (spec 4.5). -/
structure AppState where
  store : Store
  cache : List (Nat × CachedPreview)
  nextToken : Nat
deriving Repr, DecidableEq

/-- An uploaded file pair: the study file name and cell grid, and the
optional text file's cell grid (empty when absent). -/
structure UploadFile where
  filename : String
  cells : List (List String)
  textCells : List (List String)
deriving Repr, DecidableEq

/-! ## Session Resolver, Preview Builder, Commit Engine (spec 4.4-4.6) -/

/-- Parse a string of decimal digits as a natural number; `none` for an
empty or non-numeric (so also for a negative) string. -/
def parseNat (s : String) : Option Nat :=
  if s.data ≠ [] ∧ s.data.all Char.isDigit = true then
    some (s.data.foldl (fun a c => a * 10 + (c.toNat - 48)) 0)
  else none

/-- Modelled from the spec: the Session Resolver derives `(year, season)`
from the filename pattern of `{year}_{season}_study.csv` form.  (The
backend implementation is not in the source tree.) -/
def parseFilename (f : String) : Option (Nat × String) :=
  match splitUnders f with
  | [y, se, t] =>
      if t = "study.csv" ∧ seasons.contains se = true then
        (parseNat y).map (fun n => (n, se))
      else none
  | _ => none

/-- Title-case the first character, for the default session label. -/
def capitalize (s : String) : String :=
  match s.data with
  | [] => ""
  | c :: rest => String.mk (c.toUpper :: rest)

/-- Modelled from the spec: "each cell value is parsed as a non-negative
integer minute count; a non-numeric or negative cell yields
`InvalidDuration`, recovered locally by treating the cell as 0". -/
def parseCell (s : String) : Nat := (parseNat s).getD 0

/-- The warnings emitted for unparsable duration cells, in row order. -/
def cellWarnings (rows : List (List String)) : List String :=
  rows.foldr
    (fun r acc =>
      ((r.drop 1).filter (fun c => (parseNat c).isNone)).map
        (fun c => "invalid duration " ++ c) ++ acc) []

/-- Lexicographic order on character lists. -/
def lexLe : List Char → List Char → Bool
  | [], _ => true
  | _ :: _, [] => false
  | a :: as, b :: bs => if a = b then lexLe as bs else decide (a < b)

/-- ISO date comparison: lexicographic comparison of `YYYY-MM-DD`
strings is chronological. -/
def dateLe (a b : String) : Bool := lexLe a.data b.data

/-- The earliest date of a list (empty string when there is none). -/
def minD : List String → String
  | [] => ""
  | d :: rest => rest.foldl (fun a b => if dateLe a b then a else b) d

/-- The latest date of a list (empty string when there is none). -/
def maxD : List String → String
  | [] => ""
  | d :: rest => rest.foldl (fun a b => if dateLe a b then b else a) d

/-- Modelled from the spec: the per-category preview entries, built from
the merged header columns and the Family Classifier. -/
def previewCats (fams : List String) (catHeaders : List String) : List CatPreview :=
  (mergeColumns (catHeaders.map (fun h => (h, 0)))).map (fun mc =>
    let link := classify fams mc.key
    ⟨mc.key, mc.sources.headD mc.key, link.family, link.is_new_family, mc.sources⟩)

/-- Parse and merge the data rows of the study file: per row, the date
cell followed by the merged category columns. -/
def buildRows (catHeaders : List String) (dataRows : List (List String)) :
    List RowData :=
  dataRows.map (fun r =>
    ⟨r.headD "", mergeColumns (catHeaders.zip ((r.drop 1).map parseCell))⟩)

/-- Modelled from the spec: the read-only core of the Preview Builder
(spec 4.5) — filename resolution, duplicate-session rejection, header
detection, column merging, family classification and warning
collection.  Pure in the store. -/
def previewCore (store : Store) (file : UploadFile) :
    Except ImportError (CachedPreview × List String) :=
  match parseFilename file.filename with
  | none => .error .UnparsableFilename
  | some (y, se) =>
      if store.sessions.any (fun s => decide (s.year = y ∧ s.season = se)) then
        .error .DuplicateSession
      else
        match file.cells.dropWhile List.isEmpty with
        | [] => .error .MalformedCSV
        | header :: dataRows =>
            let catHeaders := header.drop 1
            let cats := previewCats (store.families.map Family.name) catHeaders
            let rows := buildRows catHeaders dataRows
            let textDates := (file.textCells.drop 1).map (fun r => r.headD "")
            .ok (⟨y, se, capitalize se ++ " " ++ toString y, cats, rows, textDates⟩,
                 cellWarnings dataRows)

/-- Assemble the preview response from a token and the cached parse. -/
def mkPreviewResult (tok : Nat) (cp : CachedPreview) (ws : List String) :
    PreviewResult :=
  ⟨tok, cp.year, cp.season, cp.label, cp.rows.length, cp.cats, cp.textDates.length, ws⟩

/-- Modelled from the spec: the preview operation.  On success it caches
the parsed structure under a fresh token; it never touches the
persistent store. -/
def previewStudy (st : AppState) (file : UploadFile) :
    Except ImportError PreviewResult × AppState :=
  match previewCore st.store file with
  | .error e => (.error e, st)
  | .ok (cp, ws) =>
      (.ok (mkPreviewResult st.nextToken cp ws),
       ⟨st.store, st.cache ++ [(st.nextToken, cp)], st.nextToken + 1⟩)

/-- The token-independent part of a preview response: its category list
and its warnings. -/
def previewProj (r : PreviewResult) : List CatPreview × List String :=
  (r.categories, r.warnings)

/-- The largest session id in use. -/
def maxIdS (l : List Session) : Nat := l.foldr (fun s m => max s.id m) 0

/-- The largest daily-record id in use. -/
def maxIdR (l : List DailyRecord) : Nat := l.foldr (fun r m => max r.id m) 0

/-- The largest category id in use. -/
def maxIdC (l : List Category) : Nat := l.foldr (fun c m => max c.id m) 0

/-- The largest family id in use. -/
def maxIdF (l : List Family) : Nat := l.foldr (fun f m => max f.id m) 0

/-- Modelled from the spec: commit step 3, create any missing
`CategoryFamily` rows, deduplicated by candidate key within the
commit. -/
def addFamilies (fams : List Family) (cats : List CatPreview) : List Family :=
  cats.foldl
    (fun fs c =>
      if c.is_new_family && !(fs.any (fun f => decide (f.name = c.auto_family))) then
        fs ++ [⟨maxIdF fs + 1, c.auto_family, "other"⟩]
      else fs)
    fams

/-- Modelled from the spec: commit step 3, create and link the session's
`Category` rows. -/
def addCats (cs : List Category) (fams : List Family) (sid : Nat)
    (cats : List CatPreview) : List Category :=
  cats.foldl
    (fun acc c =>
      acc ++ [⟨maxIdC acc + 1, sid, c.name, c.display_name,
              (fams.find? (fun f => decide (f.name = c.auto_family))).map Family.id⟩])
    cs

/-- The id of the session's category with the given merge key. -/
def catIdFor (cs : List Category) (sid : Nat) (k : String) : Nat :=
  ((cs.find? (fun c => decide (c.session_id = sid ∧ c.name = k))).map Category.id).getD 0

/-- Modelled from the spec: commit step 4 for one source row — one
`DailyRecord` whose `total_minutes` is the sum of its `Observation`s,
and one `Observation` per category with positive minutes. -/
def addRow (sid : Nat) (cs : List Category) (st : Store) (row : RowData) : Store :=
  let rid := maxIdR st.dailyRecords + 1
  let pos := row.cols.filter (fun c => decide (0 < c.minutes))
  let obs : List Observation :=
    pos.map (fun c => ⟨rid, catIdFor cs sid c.key, c.minutes, "import"⟩)
  let drec : DailyRecord := ⟨rid, sid, row.date, (pos.map MergedCol.minutes).sum⟩
  { st with dailyRecords := st.dailyRecords ++ [drec],
            observations := st.observations ++ obs }

/-- Modelled from the spec: the writing part of the Commit Engine
(spec 4.6 steps 2-6) — create the session, families, categories, daily
records with observations and text entries, then run the
auto-activation check of spec 4.4. -/
def commitBody (store : Store) (cp : CachedPreview) (today : String) : Store :=
  let sid := maxIdS store.sessions + 1
  let dates := cp.rows.map RowData.date
  let sd := minD dates
  let ed := maxD dates
  let newS : Session := ⟨sid, cp.year, cp.season, cp.label, sd, ed, false⟩
  let fams2 := addFamilies store.families cp.cats
  let cats2 := addCats store.categories fams2 sid cp.cats
  let st1 : Store :=
    { store with sessions := store.sessions ++ [newS],
                 families := fams2, categories := cats2 }
  let st2 := cp.rows.foldl (fun s row => addRow sid cats2 s row) st1
  let st3 : Store :=
    { st2 with textEntries := st2.textEntries ++ cp.textDates.map (fun d => ⟨sid, d⟩) }
  if dateLe sd today && dateLe today ed then
    { st3 with sessions :=
        st3.sessions.map (fun s => { s with is_active := decide (s.id = sid) }) }
  else st3

/-- Modelled from the spec: the Commit Engine (spec 4.6).  Re-validates
the `(year, season)` uniqueness (step 1), then performs the atomic
write. -/
def commitCached (store : Store) (cp : CachedPreview) (today : String) :
    Except ImportError Store :=
  if store.sessions.any (fun s => decide (s.year = cp.year ∧ s.season = cp.season)) then
    .error .DuplicateSession
  else
    .ok (commitBody store cp today)

/-- Modelled from the spec: the confirm operation (spec 4.6).  Fails
with `PreviewExpired` on an unknown token; on success the cache entry is
evicted in the same step. -/
def confirm (st : AppState) (tok : Nat) (today : String) :
    Except ImportError Nat × AppState :=
  match st.cache.find? (fun e => decide (e.1 = tok)) with
  | none => (.error .PreviewExpired, st)
  | some e =>
      match commitCached st.store e.2 today with
      | .error err => (.error err, st)
      | .ok s2 =>
          (.ok (maxIdS st.store.sessions + 1),
           ⟨s2, st.cache.filter (fun e2 => decide (e2.1 ≠ tok)), st.nextToken⟩)

/-- The session row created by the Commit Engine for a cached preview,
before the auto-activation check. -/
def newSession (store : Store) (cp : CachedPreview) : Session :=
  { id := maxIdS store.sessions + 1, year := cp.year, season := cp.season,
    label := cp.label, start_date := minD (cp.rows.map RowData.date),
    end_date := maxD (cp.rows.map RowData.date), is_active := false }

/-- The sum of the minutes of the observations belonging to a daily
record. -/
def recSum (st : Store) (dr : DailyRecord) : Nat :=
  ((st.observations.filter (fun o => decide (o.daily_record_id = dr.id))).map
    Observation.minutes).sum

/-- The invariant of claim C2: every daily record's `total_minutes`
equals the sum of its observations' minutes. -/
def totalsInv (st : Store) : Prop :=
  ∀ dr ∈ st.dailyRecords, dr.total_minutes = recSum st dr

/-- Referential integrity: every observation belongs to an existing
daily record. -/
def obsWf (st : Store) : Prop :=
  ∀ o ∈ st.observations, o.daily_record_id ∈ st.dailyRecords.map DailyRecord.id

/-! ## Concrete states used to exercise the operations -/

/-- The empty store. -/
def emptyStore : Store := ⟨[], [], [], [], [], []⟩

/-- A cached preview with no rows for the 2024 fall term. -/
def cpFall : CachedPreview := ⟨2024, "fall", "Fall 2024", [], [], []⟩

/-- A cached one-row preview for the 2026 winter term. -/
def cpRow : CachedPreview :=
  ⟨2026, "winter", "Winter 2026",
   [⟨"salk", "Salk", "salk", true, ["Salk"]⟩],
   [⟨"2026-01-10", [⟨"salk", ["Salk"], 120⟩]⟩],
   ["2026-01-10"]⟩

/-- An existing 2024 fall session. -/
def sessFall : Session :=
  ⟨1, 2024, "fall", "Fall 2024", "2024-09-01", "2024-12-01", true⟩

/-- A store already holding the 2024 fall session. -/
def storeFall : Store := ⟨[sessFall], [], [], [], [], []⟩

/-- An application state whose store holds the 2024 fall session and
whose cache holds a preview for that same term. -/
def stDup : AppState := ⟨storeFall, [(5, cpFall)], 6⟩

/-- An uploaded study file named for the 2024 fall term. -/
def fileDup : UploadFile :=
  ⟨"2024_fall_study.csv", [["date", "A"], ["2024-09-02", "30"]], []⟩

/-- An application state with an empty store and one cached preview. -/
def stOk : AppState := ⟨emptyStore, [(0, cpRow)], 1⟩

end Logger

namespace Logger

/-! ## Lemmas about the column merge -/

theorem insertCol_keys (acc : List MergedCol) (raw : String) (v : Nat) :
    (insertCol acc raw v).map MergedCol.key =
      if normalizeKey raw ∈ acc.map MergedCol.key then acc.map MergedCol.key
      else acc.map MergedCol.key ++ [normalizeKey raw] := by
  induction acc with
  | nil => simp [insertCol]
  | cons c rest ih =>
      by_cases h : c.key = normalizeKey raw
      · simp [insertCol, h]
      · simp only [insertCol, if_neg h, List.map_cons, ih]
        have h' : ¬ normalizeKey raw = c.key := fun e => h e.symm
        by_cases hm : normalizeKey raw ∈ rest.map MergedCol.key
        · simp [hm, h']
        · simp [hm, h']

theorem insertCol_keys_nodup (acc : List MergedCol) (raw : String) (v : Nat)
    (h : (acc.map MergedCol.key).Nodup) :
    ((insertCol acc raw v).map MergedCol.key).Nodup := by
  rw [insertCol_keys]
  by_cases hm : normalizeKey raw ∈ acc.map MergedCol.key
  · simpa [hm] using h
  · simp only [if_neg hm]
    simpa [List.nodup_append, hm] using h

theorem findCat_insertCol_ne (acc : List MergedCol) (raw : String) (v : Nat)
    (k : String) (h : k ≠ normalizeKey raw) :
    findCat (insertCol acc raw v) k = findCat acc k := by
  have hk : (decide (normalizeKey raw = k)) = false :=
    decide_eq_false (fun e => h e.symm)
  induction acc with
  | nil => simp [insertCol, findCat, List.find?, hk]
  | cons c rest ih =>
      by_cases hc : c.key = normalizeKey raw
      · have hck : (decide (c.key = k)) = false :=
          decide_eq_false (fun e => h (hc.symm.trans e).symm)
        simp only [insertCol, if_pos hc, findCat, List.find?, hck]
      · simp only [insertCol, if_neg hc]
        unfold findCat at ih ⊢
        by_cases hck : c.key = k
        · simp [List.find?, hck]
        · simp [List.find?, hck, ih]

theorem findCat_insertCol_eq (acc : List MergedCol) (raw : String) (v : Nat) :
    findCat (insertCol acc raw v) (normalizeKey raw) =
      match findCat acc (normalizeKey raw) with
      | some c => some ⟨c.key, c.sources ++ [raw], c.minutes + v⟩
      | none => some ⟨normalizeKey raw, [raw], v⟩ := by
  induction acc with
  | nil => simp [insertCol, findCat, List.find?]
  | cons c rest ih =>
      by_cases hc : c.key = normalizeKey raw
      · simp [insertCol, hc, findCat, List.find?]
      · simp only [insertCol, if_neg hc]
        unfold findCat at ih ⊢
        simp [List.find?, hc, ih]

theorem findCat_key (m : List MergedCol) (k : String) (c : MergedCol)
    (h : findCat m k = some c) : c.key = k := by
  have := List.find?_some h
  simpa using this

theorem foldl_insertCol_findCat (cols : List (String × Nat))
    (acc : List MergedCol) (k : String) :
    findCat (cols.foldl (fun a p => insertCol a p.1 p.2) acc) k =
      match findCat acc k with
      | some c =>
          some ⟨c.key, c.sources ++ (contrib cols k).map Prod.fst,
                c.minutes + ((contrib cols k).map Prod.snd).sum⟩
      | none =>
          if contrib cols k = [] then none
          else some ⟨k, (contrib cols k).map Prod.fst,
                     ((contrib cols k).map Prod.snd).sum⟩ := by
  induction cols generalizing acc with
  | nil =>
      cases h : findCat acc k with
      | none => simp [contrib, h]
      | some c => simp [contrib, h]
  | cons p cols ih =>
      by_cases hp : normalizeKey p.1 = k
      · have hcontrib : contrib (p :: cols) k = p :: contrib cols k := by
          simp [contrib, hp]
        rw [List.foldl_cons, ih]
        cases h : findCat acc k with
        | some c =>
            have hins := findCat_insertCol_eq acc p.1 p.2
            rw [hp] at hins
            rw [hins, h]
            simp [hcontrib, List.append_assoc, Nat.add_assoc]
        | none =>
            have hins := findCat_insertCol_eq acc p.1 p.2
            rw [hp] at hins
            rw [hins, h]
            simp [hcontrib]
      · have hcontrib : contrib (p :: cols) k = contrib cols k := by
          simp [contrib, hp]
        rw [List.foldl_cons, ih,
          findCat_insertCol_ne acc p.1 p.2 k (fun e => hp e.symm), hcontrib]

theorem foldl_insertCol_nodup (cols : List (String × Nat))
    (acc : List MergedCol) (h : (acc.map MergedCol.key).Nodup) :
    (((cols.foldl (fun a p => insertCol a p.1 p.2) acc)).map MergedCol.key).Nodup := by
  induction cols generalizing acc with
  | nil => simpa using h
  | cons p cols ih =>
      rw [List.foldl_cons]
      exact ih _ (insertCol_keys_nodup acc p.1 p.2 h)

/-! ## Lemmas about escapeHtml -/

theorem mem_replaceChar (t : Char) (r : List Char) (l : List Char) (c : Char)
    (h : c ∈ replaceChar t r l) : c ∈ r ∨ (c ∈ l ∧ c ≠ t) := by
  induction l with
  | nil => simp [replaceChar] at h
  | cons d rest ih =>
      simp only [replaceChar, List.mem_append] at h
      rcases h with h | h
      · by_cases hd : d = t
        · rw [if_pos hd] at h
          exact Or.inl h
        · rw [if_neg hd] at h
          simp only [List.mem_singleton] at h
          subst h
          exact Or.inr ⟨List.mem_cons_self _ _, hd⟩
      · rcases ih h with h' | ⟨hm, hne⟩
        · exact Or.inl h'
        · exact Or.inr ⟨List.mem_cons_of_mem _ hm, hne⟩

/-! ## Helper lemmas for the frontend utilities -/

theorem padTwo_len : ∀ k < 60, (padTwo k).length = 2 := by decide

/-! ## Claim theorems -/

/-- C1: whenever several raw column headers normalize to the same merge
key, the merge produces a single category for that key (the merged keys
are pairwise distinct), its per-row minute value is the sum of all
contributing columns' values (never the last one overwriting the
others), and its `source_columns` list is exactly the list of all
contributing raw headers; the preview entries expose precisely the
merged keys and source columns; and the raw headers "COGS 118C" and
"cogs_118c" indeed normalize to the same merge key. -/
theorem claim_C1 :
    (∀ cols : List (String × Nat), ((mergeColumns cols).map MergedCol.key).Nodup) ∧
    (∀ (cols : List (String × Nat)) (k : String),
      findCat (mergeColumns cols) k =
        if contrib cols k = [] then none
        else some ⟨k, (contrib cols k).map Prod.fst,
                   ((contrib cols k).map Prod.snd).sum⟩) ∧
    (∀ (fams : List String) (catHeaders : List String),
      (previewCats fams catHeaders).map (fun c => (c.name, c.source_columns)) =
        (mergeColumns (catHeaders.map (fun h => (h, 0)))).map
          (fun mc => (mc.key, mc.sources))) ∧
    normalizeKey "COGS 118C" = "cogs_118c" ∧ normalizeKey "cogs_118c" = "cogs_118c" := by
  refine ⟨?_, ?_, ?_, by decide, by decide⟩
  · intro cols
    exact foldl_insertCol_nodup cols [] (by simp)
  · intro cols k
    have h := foldl_insertCol_findCat cols [] k
    have h0 : findCat ([] : List MergedCol) k = none := by
      simp [findCat, List.find?]
    rw [h0] at h
    simpa [mergeColumns] using h
  · intro fams catHeaders
    simp [previewCats, List.map_map]

/-- C8: `computeElapsedSeconds` always returns a non-negative whole
number of seconds — for every timer entry (any start time, accumulated
pause total, paused or running) and any current clock value, the result
is a non-negative integer, even when the pause bookkeeping makes the raw
difference negative. -/
theorem claim_C8 : ∀ (t : TimerEntry) (now : ℚ), 0 ≤ computeElapsedSeconds t now := by
  intro t now
  unfold computeElapsedSeconds
  exact le_max_left 0 _

/-- C9: `formatElapsed` faithfully encodes its input: for every natural
number `n` the output is the string `h:mm:ss` where the minute and
second fields are zero-padded two-character numbers strictly below 60
and `h * 3600 + mm * 60 + ss = n`. -/
theorem claim_C9 : ∀ n : Nat, ∃ h m s : Nat,
    formatElapsed n = toString h ++ ":" ++ padTwo m ++ ":" ++ padTwo s ∧
    (padTwo m).length = 2 ∧ (padTwo s).length = 2 ∧ m < 60 ∧ s < 60 ∧
    h * 3600 + m * 60 + s = n := by
  intro n
  refine ⟨n / 3600, n % 3600 / 60, n % 60, rfl, ?_, ?_, ?_, ?_, ?_⟩
  · exact padTwo_len _ (by omega)
  · exact padTwo_len _ (by omega)
  · omega
  · omega
  · omega

/-- C10: `escapeHtml` returns a string containing no occurrence of the
characters less-than, greater-than, or double quote, so no raw HTML tag
from chat content survives escaping. -/
theorem claim_C10 : ∀ s : String,
    '<' ∉ (escapeHtml s).data ∧ '>' ∉ (escapeHtml s).data ∧ '"' ∉ (escapeHtml s).data := by
  intro s
  refine ⟨?_, ?_, ?_⟩ <;> intro h <;>
    simp only [escapeHtml] at h
  · rcases mem_replaceChar _ _ _ _ h with h1 | ⟨h1, -⟩
    · exact absurd h1 (by decide)
    rcases mem_replaceChar _ _ _ _ h1 with h2 | ⟨h2, -⟩
    · exact absurd h2 (by decide)
    rcases mem_replaceChar _ _ _ _ h2 with h3 | ⟨h3, hne⟩
    · exact absurd h3 (by decide)
    exact hne rfl
  · rcases mem_replaceChar _ _ _ _ h with h1 | ⟨h1, -⟩
    · exact absurd h1 (by decide)
    rcases mem_replaceChar _ _ _ _ h1 with h2 | ⟨h2, hne⟩
    · exact absurd h2 (by decide)
    exact hne rfl
  · rcases mem_replaceChar _ _ _ _ h with h1 | ⟨h1, hne⟩
    · exact absurd h1 (by decide)
    exact hne rfl

/-! ## Lemmas about the family classifier -/

theorem isPre_refl : ∀ l : List Char, isPre l l = true := by
  intro l
  induction l with
  | nil => rfl
  | cons c cs ih => simp [isPre, ih]

theorem isPre_length : ∀ a b : List Char, isPre a b = true → a.length ≤ b.length := by
  intro a
  induction a with
  | nil => intro b h; simp
  | cons c cs ih =>
      intro b h
      cases b with
      | nil => simp [isPre] at h
      | cons d ds =>
          simp only [isPre, Bool.and_eq_true, decide_eq_true_eq] at h
          have := ih ds h.2
          simp only [List.length_cons]
          omega

theorem isPre_unique : ∀ (c a b : List Char), isPre a c = true → isPre b c = true →
    a.length = b.length → a = b := by
  intro c
  induction c with
  | nil =>
      intro a b ha hb hl
      cases a with
      | nil =>
          cases b with
          | nil => rfl
          | cons d ds => simp [isPre] at hb
      | cons d ds => simp [isPre] at ha
  | cons e es ih =>
      intro a b ha hb hl
      cases a with
      | nil =>
          cases b with
          | nil => rfl
          | cons d ds => simp at hl
      | cons d ds =>
          cases b with
          | nil => simp at hl
          | cons d2 ds2 =>
              simp only [isPre, Bool.and_eq_true, decide_eq_true_eq] at ha hb
              have h1 : ds = ds2 := ih ds ds2 ha.2 hb.2 (by simpa using hl)
              rw [ha.1, hb.1, h1]

theorem strLen (s : String) : s.length = s.data.length := rfl

theorem strEq (a b : String) (h : a.data = b.data) : a = b := by
  cases a
  cases b
  exact congrArg String.mk h

theorem pickLonger_ne_none (acc : Option String) (f : String) :
    pickLonger acc f ≠ none := by
  cases acc with
  | none => simp [pickLonger]
  | some b =>
      simp only [pickLonger]
      split <;> simp

theorem bestPre_fold (cand : String) :
    ∀ (fams : List String) (acc : Option String),
      (∀ a, acc = some a → isPre a.data cand.data = true) →
      (match fams.foldl
          (fun best f => if isPre f.data cand.data then pickLonger best f else best)
          acc with
       | none => acc = none ∧ ∀ g ∈ fams, isPre g.data cand.data = false
       | some b => isPre b.data cand.data = true ∧ (b ∈ fams ∨ acc = some b) ∧
           (∀ g ∈ fams, isPre g.data cand.data = true → g.length ≤ b.length) ∧
           (∀ a, acc = some a → a.length ≤ b.length)) := by
  intro fams
  induction fams with
  | nil =>
      intro acc hacc
      cases acc with
      | none => exact ⟨rfl, by simp⟩
      | some a =>
          refine ⟨hacc a rfl, Or.inr rfl, by simp, ?_⟩
          intro a2 ha2
          cases ha2
          exact le_refl _
  | cons f fams ih =>
      intro acc hacc
      rw [List.foldl_cons]
      by_cases hf : isPre f.data cand.data = true
      · rw [if_pos hf]
        have hacc2 : ∀ a, pickLonger acc f = some a → isPre a.data cand.data = true := by
          intro a ha
          cases acc with
          | none =>
              simp only [pickLonger] at ha
              cases ha
              exact hf
          | some b =>
              simp only [pickLonger] at ha
              split at ha
              · injection ha with hba
                rw [← hba]
                exact hf
              · injection ha with hba
                rw [← hba]
                exact hacc b rfl
        have ihh := ih (pickLonger acc f) hacc2
        cases hres : fams.foldl
            (fun best f => if isPre f.data cand.data then pickLonger best f else best)
            (pickLonger acc f) with
        | none =>
            rw [hres] at ihh
            exact absurd ihh.1 (pickLonger_ne_none acc f)
        | some b =>
            rw [hres] at ihh
            obtain ⟨hb1, hb2, hb3, hb4⟩ := ihh
            refine ⟨hb1, ?_, ?_, ?_⟩
            · rcases hb2 with hmem | hpick
              · exact Or.inl (List.mem_cons_of_mem _ hmem)
              · cases acc with
                | none =>
                    have hbf : f = b := by simpa [pickLonger] using hpick
                    exact Or.inl (hbf ▸ List.mem_cons_self _ _)
                | some a =>
                    by_cases hl : a.length < f.length
                    · have hbf : f = b := by simpa [pickLonger, hl] using hpick
                      exact Or.inl (hbf ▸ List.mem_cons_self _ _)
                    · have hba : a = b := by simpa [pickLonger, hl] using hpick
                      exact Or.inr (by rw [hba])
            · intro g hg hgpre
              rcases List.mem_cons.mp hg with he | hg2
              · subst he
                cases acc with
                | none => exact hb4 g rfl
                | some a =>
                    by_cases hl : a.length < g.length
                    · exact hb4 g (by simp [pickLonger, hl])
                    · have h5 := hb4 a (by simp [pickLonger, hl])
                      omega
              · exact hb3 g hg2 hgpre
            · intro a ha
              cases acc with
              | none => exact absurd ha (by simp)
              | some a2 =>
                  have ha2 : a2 = a := by simpa using ha
                  subst ha2
                  by_cases hl : a2.length < f.length
                  · have h5 := hb4 f (by simp [pickLonger, hl])
                    omega
                  · exact hb4 a2 (by simp [pickLonger, hl])
      · rw [if_neg hf]
        rw [Bool.not_eq_true] at hf
        have ihh := ih acc hacc
        cases hres : fams.foldl
            (fun best f => if isPre f.data cand.data then pickLonger best f else best)
            acc with
        | none =>
            rw [hres] at ihh
            obtain ⟨h1, h2⟩ := ihh
            refine ⟨h1, ?_⟩
            intro g hg
            rcases List.mem_cons.mp hg with he | hg2
            · subst he
              exact hf
            · exact h2 g hg2
        | some b =>
            rw [hres] at ihh
            obtain ⟨hb1, hb2, hb3, hb4⟩ := ihh
            refine ⟨hb1, ?_, ?_, hb4⟩
            · rcases hb2 with hm | hp
              · exact Or.inl (List.mem_cons_of_mem _ hm)
              · exact Or.inr hp
            · intro g hg hgpre
              rcases List.mem_cons.mp hg with he | hg2
              · subst he
                rw [hf] at hgpre
                exact absurd hgpre (by simp)
              · exact hb3 g hg2 hgpre

theorem bestPre_spec (cand : String) (fams : List String) :
    (bestPre cand fams = none → ∀ g ∈ fams, isPre g.data cand.data = false) ∧
    (∀ b, bestPre cand fams = some b → isPre b.data cand.data = true ∧ b ∈ fams ∧
      ∀ g ∈ fams, isPre g.data cand.data = true → g.length ≤ b.length) := by
  have h := bestPre_fold cand fams none (by intro a ha; simp at ha)
  cases hres : fams.foldl
      (fun best f => if isPre f.data cand.data then pickLonger best f else best)
      none with
  | none =>
      rw [hres] at h
      constructor
      · intro _ g hg
        exact h.2 g hg
      · intro b hb
        unfold bestPre at hb
        rw [hres] at hb
        exact absurd hb (by simp)
  | some b0 =>
      rw [hres] at h
      obtain ⟨h1, h2, h3, -⟩ := h
      have hmem : b0 ∈ fams := by
        rcases h2 with hm | hc
        · exact hm
        · exact absurd hc (by simp)
      constructor
      · intro hb
        unfold bestPre at hb
        rw [hres] at hb
        exact absurd hb (by simp)
      · intro b hb
        unfold bestPre at hb
        rw [hres] at hb
        have hbb : b0 = b := by simpa using hb
        subst hbb
        exact ⟨h1, hmem, h3⟩

/-! ## Lemmas about the commit engine -/

theorem addRow_sessions (sid : Nat) (cs : List Category) (st : Store) (row : RowData) :
    (addRow sid cs st row).sessions = st.sessions := rfl

theorem foldl_addRow_sessions (sid : Nat) (cs : List Category) :
    ∀ (rows : List RowData) (st : Store),
      (rows.foldl (fun s row => addRow sid cs s row) st).sessions = st.sessions := by
  intro rows
  induction rows with
  | nil => intro st; rfl
  | cons r rows ih =>
      intro st
      rw [List.foldl_cons, ih, addRow_sessions]

theorem maxIdS_le (l : List Session) : ∀ s ∈ l, s.id ≤ maxIdS l := by
  induction l with
  | nil => simp
  | cons a l ih =>
      intro s hs
      rcases List.mem_cons.mp hs with h | h
      · subst h
        exact le_max_left _ _
      · exact le_trans (ih s h) (le_max_right _ _)

theorem commitBody_sessions (store : Store) (cp : CachedPreview) (today : String) :
    (commitBody store cp today).sessions =
      (if (dateLe (minD (cp.rows.map RowData.date)) today &&
           dateLe today (maxD (cp.rows.map RowData.date))) = true then
        (store.sessions ++ [newSession store cp]).map
          (fun s => { s with is_active := decide (s.id = maxIdS store.sessions + 1) })
      else
        store.sessions ++ [newSession store cp]) := by
  simp only [commitBody]
  split <;> rename_i hcond <;> simp [foldl_addRow_sessions, newSession]

theorem maxIdR_le (l : List DailyRecord) : ∀ r ∈ l, r.id ≤ maxIdR l := by
  induction l with
  | nil => simp
  | cons a l ih =>
      intro r hr
      rcases List.mem_cons.mp hr with h | h
      · subst h
        exact le_max_left _ _
      · exact le_trans (ih r h) (le_max_right _ _)

theorem totalsInv_eq (s s2 : Store) (hr : s2.dailyRecords = s.dailyRecords)
    (ho : s2.observations = s.observations) (h : totalsInv s) : totalsInv s2 := by
  intro dr hdr
  rw [hr] at hdr
  have h2 := h dr hdr
  unfold recSum at h2 ⊢
  rw [ho]
  exact h2

theorem obsWf_eq (s s2 : Store) (hr : s2.dailyRecords = s.dailyRecords)
    (ho : s2.observations = s.observations) (h : obsWf s) : obsWf s2 := by
  intro o hobs
  rw [ho] at hobs
  rw [hr]
  exact h o hobs

theorem addRow_inv (sid : Nat) (cs : List Category) (st : Store) (row : RowData)
    (hinv : totalsInv st) (hwf : obsWf st) :
    totalsInv (addRow sid cs st row) ∧ obsWf (addRow sid cs st row) := by
  have hidlt : ∀ dr ∈ st.dailyRecords, dr.id < maxIdR st.dailyRecords + 1 := by
    intro dr hdr
    have := maxIdR_le st.dailyRecords dr hdr
    omega
  have hoblt : ∀ o ∈ st.observations,
      o.daily_record_id < maxIdR st.dailyRecords + 1 := by
    intro o ho
    rcases List.mem_map.mp (hwf o ho) with ⟨dr, hdr, he⟩
    have := maxIdR_le st.dailyRecords dr hdr
    omega
  constructor
  · intro dr hdr
    simp only [addRow] at hdr
    rcases List.mem_append.mp hdr with hold | hnew
    · have hsum := hinv dr hold
      unfold recSum at hsum ⊢
      simp only [addRow, List.filter_append]
      have hob : (((row.cols.filter (fun c => decide (0 < c.minutes))).map
          (fun c => (⟨maxIdR st.dailyRecords + 1, catIdFor cs sid c.key,
            c.minutes, "import"⟩ : Observation))).filter
          (fun o => decide (o.daily_record_id = dr.id))) = [] := by
        rw [List.filter_eq_nil_iff]
        intro o hob
        rcases List.mem_map.mp hob with ⟨c, hc, he⟩
        subst he
        have := hidlt dr hold
        simp only [decide_eq_true_eq]
        omega
      rw [hob, List.append_nil]
      exact hsum
    · have hdrec : dr = ⟨maxIdR st.dailyRecords + 1, sid, row.date,
          ((row.cols.filter (fun c => decide (0 < c.minutes))).map
            MergedCol.minutes).sum⟩ := by
        simpa using hnew
      subst hdrec
      unfold recSum
      simp only [addRow, List.filter_append]
      have hold : (st.observations.filter
          (fun o => decide (o.daily_record_id = maxIdR st.dailyRecords + 1))) = [] := by
        rw [List.filter_eq_nil_iff]
        intro o ho
        have := hoblt o ho
        simp only [decide_eq_true_eq]
        omega
      have hkeep : (((row.cols.filter (fun c => decide (0 < c.minutes))).map
          (fun c => (⟨maxIdR st.dailyRecords + 1, catIdFor cs sid c.key,
            c.minutes, "import"⟩ : Observation))).filter
          (fun o => decide (o.daily_record_id = maxIdR st.dailyRecords + 1))) =
          ((row.cols.filter (fun c => decide (0 < c.minutes))).map
            (fun c => (⟨maxIdR st.dailyRecords + 1, catIdFor cs sid c.key,
              c.minutes, "import"⟩ : Observation))) := by
        rw [List.filter_eq_self]
        intro o hob
        rcases List.mem_map.mp hob with ⟨c, hc, he⟩
        subst he
        simp
      rw [hold, List.nil_append, hkeep, List.map_map]
      rfl
  · intro o hobs
    simp only [addRow] at hobs ⊢
    rcases List.mem_append.mp hobs with hold | hnew
    · rw [List.map_append]
      exact List.mem_append_left _ (hwf o hold)
    · rcases List.mem_map.mp hnew with ⟨c, hc, he⟩
      subst he
      rw [List.map_append]
      refine List.mem_append_right _ ?_
      simp

theorem foldl_addRow_inv (sid : Nat) (cs : List Category) :
    ∀ (rows : List RowData) (st : Store), totalsInv st → obsWf st →
      totalsInv (rows.foldl (fun s row => addRow sid cs s row) st) ∧
      obsWf (rows.foldl (fun s row => addRow sid cs s row) st) := by
  intro rows
  induction rows with
  | nil => intro st h1 h2; exact ⟨h1, h2⟩
  | cons r rows ih =>
      intro st h1 h2
      rw [List.foldl_cons]
      obtain ⟨ha, hb⟩ := addRow_inv sid cs st r h1 h2
      exact ih _ ha hb

theorem commitBody_inv (store : Store) (cp : CachedPreview) (today : String)
    (hinv : totalsInv store) (hwf : obsWf store) :
    totalsInv (commitBody store cp today) ∧ obsWf (commitBody store cp today) := by
  obtain ⟨h2i, h2w⟩ := foldl_addRow_inv (maxIdS store.sessions + 1)
    (addCats store.categories (addFamilies store.families cp.cats)
      (maxIdS store.sessions + 1) cp.cats)
    cp.rows
    { store with
      sessions := store.sessions ++ [newSession store cp],
      families := addFamilies store.families cp.cats,
      categories := addCats store.categories (addFamilies store.families cp.cats)
        (maxIdS store.sessions + 1) cp.cats }
    (totalsInv_eq store _ rfl rfl hinv)
    (obsWf_eq store _ rfl rfl hwf)
  constructor
  · refine totalsInv_eq _ _ ?_ ?_ h2i
    · simp only [commitBody]
      split <;> simp [newSession]
    · simp only [commitBody]
      split <;> simp [newSession]
  · refine obsWf_eq _ _ ?_ ?_ h2w
    · simp only [commitBody]
      split <;> simp [newSession]
    · simp only [commitBody]
      split <;> simp [newSession]

/-! ## Lemmas about the preview operation -/

theorem previewStudy_store (st : AppState) (f : UploadFile) :
    (previewStudy st f).2.store = st.store := by
  unfold previewStudy
  rcases hpc : previewCore st.store f with e | p
  · simp [hpc]
  · rcases p with ⟨cp, ws⟩
    simp [hpc]

theorem previewStudy_proj (st : AppState) (f : UploadFile) :
    Except.map previewProj (previewStudy st f).1 =
      Except.map (fun pw => (pw.1.cats, pw.2)) (previewCore st.store f) := by
  unfold previewStudy
  rcases hpc : previewCore st.store f with e | p
  · simp [hpc, Except.map]
  · rcases p with ⟨cp, ws⟩
    simp [hpc, Except.map, mkPreviewResult, previewProj]

/-- C6: when a category's candidate family key is a prefix-match
candidate for more than one existing family, the Family Classifier
links it to the family with the longest matching prefix (the unique
maximal-length family key that is a prefix of the candidate), with
`is_new_family = false`; in particular a family whose key exactly
matches the candidate key is linked with `is_new_family = false`. -/
theorem claim_C6 :
    (∀ (fams : List String) (key f : String),
      f ∈ fams → isPre f.data (candidateKey key).data = true →
      (∀ g ∈ fams, isPre g.data (candidateKey key).data = true → g.length ≤ f.length) →
      (classify fams key).family = f ∧ (classify fams key).is_new_family = false) ∧
    (∀ (fams : List String) (key : String),
      candidateKey key ∈ fams →
      (classify fams key).family = candidateKey key ∧
      (classify fams key).is_new_family = false) := by
  have main : ∀ (fams : List String) (key f : String),
      f ∈ fams → isPre f.data (candidateKey key).data = true →
      (∀ g ∈ fams, isPre g.data (candidateKey key).data = true → g.length ≤ f.length) →
      (classify fams key).family = f ∧ (classify fams key).is_new_family = false := by
    intro fams key f hmem hpre hmax
    cases hres : bestPre (candidateKey key) fams with
    | none =>
        have hnone := (bestPre_spec (candidateKey key) fams).1 hres f hmem
        rw [hnone] at hpre
        exact absurd hpre (by simp)
    | some b =>
        obtain ⟨hb1, hbm, hb3⟩ := (bestPre_spec (candidateKey key) fams).2 b hres
        have hlen : b.length = f.length :=
          le_antisymm (hmax b hbm hb1) (hb3 f hmem hpre)
        rw [strLen, strLen] at hlen
        have hbf : b = f :=
          strEq b f (isPre_unique (candidateKey key).data b.data f.data hb1 hpre hlen)
        simp only [classify]
        rw [hres]
        exact ⟨hbf, rfl⟩
  refine ⟨main, ?_⟩
  intro fams key hmem
  refine main fams key (candidateKey key) hmem (isPre_refl _) ?_
  intro g hg hgpre
  rw [strLen, strLen]
  exact isPre_length g.data (candidateKey key).data hgpre

/-- Witness for C6: with existing families `co` and `cogs`, the merge
key `cogs_fall` (candidate key `cogs`) is linked to the longer match
`cogs` as an existing family. -/
theorem claim_C6_witness :
    (classify ["co", "cogs"] "cogs_fall").family = "cogs" ∧
    (classify ["co", "cogs"] "cogs_fall").is_new_family = false :=
  claim_C6.1 ["co", "cogs"] "cogs_fall" "cogs" (by decide) (by decide) (by decide)

/-- C7: preview is deterministic and side-effect free on the persistent
store: running it, then running it again on the identical file, leaves
the store untouched both times and returns the same category list and
the same warnings list. -/
theorem claim_C7 : ∀ (st : AppState) (f : UploadFile),
    (previewStudy st f).2.store = st.store ∧
    (previewStudy (previewStudy st f).2 f).2.store = st.store ∧
    Except.map previewProj (previewStudy st f).1 =
      Except.map previewProj (previewStudy (previewStudy st f).2 f).1 := by
  intro st f
  have h1 := previewStudy_store st f
  have h2 := previewStudy_store (previewStudy st f).2 f
  refine ⟨h1, h2.trans h1, ?_⟩
  rw [previewStudy_proj, previewStudy_proj, h1]

/-- C3: an import whose filename resolves to the `(year, season)` of an
already existing session is rejected by both preview and confirm with
`DuplicateSession`, and in both cases the whole application state (and
so the persistent store) is left completely unchanged. -/
theorem claim_C3 :
    (∀ (st : AppState) (f : UploadFile) (y : Nat) (se : String),
      parseFilename f.filename = some (y, se) →
      (∃ s ∈ st.store.sessions, s.year = y ∧ s.season = se) →
      previewStudy st f = (.error .DuplicateSession, st)) ∧
    (∀ (st : AppState) (tok : Nat) (today : String) (cp : CachedPreview),
      st.cache.find? (fun e => decide (e.1 = tok)) = some (tok, cp) →
      (∃ s ∈ st.store.sessions, s.year = cp.year ∧ s.season = cp.season) →
      confirm st tok today = (.error .DuplicateSession, st)) := by
  constructor
  · intro st f y se hparse hex
    unfold previewStudy previewCore
    rw [hparse]
    simp only [List.any_eq_true, decide_eq_true_eq]
    rw [if_pos hex]
  · intro st tok today cp hfind hex
    unfold confirm
    simp only [hfind]
    unfold commitCached
    simp only [List.any_eq_true, decide_eq_true_eq]
    rw [if_pos hex]

/-- Witness for C3: with a `(2024, fall)` session in the store, the
preview of `2024_fall_study.csv` and the confirm of a cached
`(2024, fall)` preview both fail with `DuplicateSession` and leave the
state unchanged. -/
theorem claim_C3_witness :
    previewStudy stDup fileDup = (.error .DuplicateSession, stDup) ∧
    confirm stDup 5 "2024-09-02" = (.error .DuplicateSession, stDup) :=
  ⟨claim_C3.1 stDup fileDup 2024 "fall" (by decide)
     ⟨sessFall, by decide, by decide, by decide⟩,
   claim_C3.2 stDup 5 "2024-09-02" cpFall (by decide)
     ⟨sessFall, by decide, by decide, by decide⟩⟩

/-- C4: confirm succeeds at most once per token.  A successful confirm
evicts the cached preview, so a second confirm with the same token
fails with `PreviewExpired` and changes nothing, and a confirm with an
unknown token fails with `PreviewExpired` and changes nothing. -/
theorem claim_C4 :
    (∀ (st : AppState) (tok : Nat) (today : String) (r : Nat) (st2 : AppState),
      confirm st tok today = (.ok r, st2) →
      (confirm st2 tok today).1 = .error .PreviewExpired ∧
      (confirm st2 tok today).2 = st2) ∧
    (∀ (st : AppState) (tok : Nat) (today : String),
      st.cache.find? (fun e => decide (e.1 = tok)) = none →
      confirm st tok today = (.error .PreviewExpired, st)) := by
  constructor
  · intro st tok today r st2 h
    unfold confirm at h
    rcases hf : st.cache.find? (fun e => decide (e.1 = tok)) with _ | e
    · simp only [hf] at h
      simp at h
    · simp only [hf] at h
      rcases hc : commitCached st.store e.2 today with err | s2
      · simp only [hc] at h
        simp at h
      · simp only [hc] at h
        have hcache : st2.cache = st.cache.filter (fun e2 => decide (e2.1 ≠ tok)) := by
          have h2 := congrArg Prod.snd h
          simp only [] at h2
          rw [← h2]
        have hnone : st2.cache.find? (fun e => decide (e.1 = tok)) = none := by
          rw [hcache, List.find?_eq_none]
          intro x hx
          have hmem := List.of_mem_filter hx
          simp only [decide_eq_true_eq] at hmem
          simp [hmem]
        constructor
        · unfold confirm
          simp only [hnone]
        · unfold confirm
          simp only [hnone]
  · intro st tok today h
    unfold confirm
    simp only [h]

/-- Witness for C4: a concrete successful confirm, after which the same
token is rejected with `PreviewExpired` and the state is unchanged; and
a state with an empty cache rejects any token. -/
theorem claim_C4_witness :
    ((confirm (confirm stOk 0 "2026-01-10").2 0 "2026-01-10").1 =
        .error .PreviewExpired ∧
      (confirm (confirm stOk 0 "2026-01-10").2 0 "2026-01-10").2 =
        (confirm stOk 0 "2026-01-10").2) ∧
    confirm ⟨emptyStore, [], 0⟩ 3 "2026-01-10" =
      (.error .PreviewExpired, ⟨emptyStore, [], 0⟩) :=
  ⟨claim_C4.1 stOk 0 "2026-01-10" 1 (confirm stOk 0 "2026-01-10").2 rfl,
   claim_C4.2 ⟨emptyStore, [], 0⟩ 3 "2026-01-10" rfl⟩

/-- C5: after a successful commit, if today lies within the new
session's `[start_date, end_date]` range, the new session is active and
every other session is inactive (so at most one session is active);
if today lies outside the range, the existing sessions are written back
unchanged and the new session is created inactive. -/
theorem claim_C5 : ∀ (store : Store) (cp : CachedPreview) (today : String) (s2 : Store),
    commitCached store cp today = .ok s2 →
    (((dateLe (minD (cp.rows.map RowData.date)) today &&
       dateLe today (maxD (cp.rows.map RowData.date))) = true →
      (∃ t ∈ s2.sessions, t.id = maxIdS store.sessions + 1 ∧ t.is_active = true) ∧
      (∀ t ∈ s2.sessions, t.id ≠ maxIdS store.sessions + 1 → t.is_active = false)) ∧
     ((dateLe (minD (cp.rows.map RowData.date)) today &&
       dateLe today (maxD (cp.rows.map RowData.date))) = false →
      s2.sessions = store.sessions ++ [newSession store cp])) := by
  intro store cp today s2 h
  unfold commitCached at h
  split at h
  · exact absurd h (by simp)
  · simp only [Except.ok.injEq] at h
    subst h
    have hs := commitBody_sessions store cp today
    constructor
    · intro hcond
      rw [if_pos hcond] at hs
      constructor
      · refine ⟨{ newSession store cp with
            is_active := decide ((newSession store cp).id = maxIdS store.sessions + 1) },
          ?_, ?_, ?_⟩
        · rw [hs]
          exact List.mem_map.mpr
            ⟨newSession store cp, List.mem_append_right _ (by simp), rfl⟩
        · simp [newSession]
        · simp [newSession]
      · intro t ht hne
        rw [hs] at ht
        rcases List.mem_map.mp ht with ⟨u, hu, he⟩
        subst he
        have hune : u.id ≠ maxIdS store.sessions + 1 := hne
        simp [hune]
    · intro hcond
      rw [hs, if_neg (by simp [hcond])]

/-- C2: the `total_minutes` aggregate invariant is preserved by every
successful commit — in any store satisfying it (together with
referential integrity of observations), after a successful commit every
daily record's `total_minutes` still equals the sum of the minutes of
its observations. -/
theorem claim_C2 : ∀ (store : Store) (cp : CachedPreview) (today : String) (s2 : Store),
    totalsInv store → obsWf store → commitCached store cp today = .ok s2 →
    totalsInv s2 ∧ obsWf s2 := by
  intro store cp today s2 hinv hwf h
  unfold commitCached at h
  split at h
  · exact absurd h (by simp)
  · simp only [Except.ok.injEq] at h
    subst h
    exact commitBody_inv store cp today hinv hwf

/-- Witness for C2: committing a one-row preview into the empty store
yields a store in which every daily record's total equals the sum of
its observations. -/
theorem claim_C2_witness :
    totalsInv ((commitCached emptyStore cpRow "2026-01-10").toOption.getD emptyStore) ∧
    obsWf ((commitCached emptyStore cpRow "2026-01-10").toOption.getD emptyStore) :=
  claim_C2 emptyStore cpRow "2026-01-10"
    ((commitCached emptyStore cpRow "2026-01-10").toOption.getD emptyStore)
    (by intro dr hdr; simp [emptyStore] at hdr)
    (by intro o ho; simp [emptyStore] at ho)
    rfl

/-- Witness for C5: committing a one-row preview into an empty store
while today equals that row's date yields a store whose new session is
active. -/
theorem claim_C5_witness :
    ∃ t ∈ ((commitCached emptyStore cpRow "2026-01-10").toOption.getD
        emptyStore).sessions,
      t.id = maxIdS emptyStore.sessions + 1 ∧ t.is_active = true :=
  ((claim_C5 emptyStore cpRow "2026-01-10"
      ((commitCached emptyStore cpRow "2026-01-10").toOption.getD emptyStore)
      rfl).1 (by decide)).1

end Logger
